import Mathlib

set_option maxRecDepth 8192

/-!
Verification of the dynstack repository: a shallow embedding of the
DynStack data structure from src/lib.rs, followed by theorems settling the
specification claims. Machine integers are modelled as Nat; the two places
where 64-bit wraparound is observable (the wrapping index of peek, the
wrapping offset adjustment of grow, and the usize addition inside align_up)
carry an explicit modulus 2 ^ 64. Allocator nondeterminism is made explicit
as an oracle: the list of base addresses the allocator will return next.
-/

/-- Structural helper for ctz: scan at most fuel low bits for the first 1. -/
def ctzAux : Nat → Nat → Nat
  | 0, _ => 0
  | fuel + 1, n => if n % 2 = 1 then 0 else ctzAux fuel (n / 2) + 1

/-- Trailing zero count of a 64-bit machine word, as computed by
    usize trailing_zeros: 64 for the input 0, otherwise the number of
    factors of 2 in the input (words have at most 64 bits). -/
def ctz (n : Nat) : Nat :=
  if n = 0 then 64 else ctzAux 64 n

/-- Translation of align_up from src/lib.rs: round num up to the nearest
    multiple of align (a power of two) with the shift trick of the source.
    Words are unbounded Nat here; align_up_usize below is the 64-bit variant. -/
def align_up (num align : Nat) : Nat :=
  (num + align - 1) >>> ctz align <<< ctz align

/-- The same computation on 64-bit usize: the intermediate sum num + align - 1
    wraps modulo 2 ^ 64 exactly as release-mode usize addition does. -/
def align_up_usize (num align : Nat) : Nat :=
  ((num + align - 1) % 2 ^ 64) >>> ctz align <<< ctz align

/-- The behavior descriptor: the second word of a fat pointer. The vtable it
    designates determines the payload size, alignment and drop behavior, so
    the model carries those three; tag identifies the concrete type (distinct
    tags model distinct vtables). -/
structure Desc where
  size : Nat
  align : Nat
  tag : Nat
deriving DecidableEq, Repr

/-- A concrete value pushed behind a fat reference: its descriptor plus its
    raw byte representation (bytes.length = desc.size for well-formed input). -/
structure Payload where
  desc : Desc
  bytes : List Nat
deriving DecidableEq, Repr

/-- Ghost record of one corrective realignment copy performed by grow: the
    source offset (offset of element 0), the signed delta that was added, the
    number of bytes copied (dyn_size at that moment), and the capacity right
    after the reallocation. -/
structure ShiftEv where
  src : Nat
  delta : Int
  len : Nat
  cap : Nat
deriving DecidableEq, Repr

/-- State of DynStack. buf holds the dyn_cap arena bytes (freshly allocated
    bytes modelled as 0); dyn_data is the absolute base address returned by
    the allocator; oracle is the stream of future base addresses the
    allocator will return; drops, shifts and freed are ghost fields recording
    the drop calls, the realignment copies, and the final deallocation. -/
structure DynStack where
  offs_table : List (Nat × Desc)
  dyn_data : Nat
  dyn_size : Nat
  dyn_cap : Nat
  max_align : Nat
  buf : List Nat
  oracle : List Nat
  drops : List Nat
  shifts : List ShiftEv
  freed : Bool
deriving DecidableEq, Repr

/-- Read len bytes of buf starting at offset off (shorter if out of range). -/
def readBuf (buf : List Nat) (off len : Nat) : List Nat :=
  (buf.drop off).take len

/-- Read exactly len bytes with zero padding, modelling a raw memory read
    whose source range may stick out past the tracked buffer. -/
def readBufPad (buf : List Nat) (off len : Nat) : List Nat :=
  (buf.drop off ++ List.replicate len 0).take len

/-- Write bs into buf at offset off; bytes that would land outside the buffer
    are not tracked. The length of buf is always preserved. -/
def bufWrite (buf : List Nat) (off : Nat) (bs : List Nat) : List Nat :=
  (buf.take off ++ bs ++ buf.drop (off + bs.length)).take buf.length

/-- memmove of len bytes from offset src to offset dst within buf. -/
def memMove (buf : List Nat) (src dst len : Nat) : List Nat :=
  bufWrite buf dst (readBufPad buf src len)

/-- Kind of the element type parameter T. Platform model (64-bit): a pointer
    to a Sized type is one word (8 bytes); pointers to slices and to trait
    objects are two words (16 bytes). Only traitObject is an interface type. -/
inductive TyKind
  | sized
  | slice
  | traitObject
deriving DecidableEq, Repr

/-- Size in bytes of a raw pointer to a value of the given type kind. -/
def ptrSizeBytes : TyKind → Nat
  | .sized => 8
  | .slice => 16
  | .traitObject => 16

/-- The record DynStack::new produces (no allocation), with the given
    allocator oracle attached. -/
def DynStack.initial (oracle : List Nat) : DynStack :=
  { offs_table := [], dyn_data := 0, dyn_size := 0, dyn_cap := 0,
    max_align := 16, buf := [], oracle := oracle, drops := [], shifts := [],
    freed := false }

/-- DynStack::new asserts size_of of a raw pointer to T equals the size of
    two machine words (16 bytes); none models the assertion panic. -/
def DynStack.new (k : TyKind) (oracle : List Nat) : Option DynStack :=
  if ptrSizeBytes k = 16 then some (DynStack.initial oracle) else none

/-- Structural helper for next_power_of_two (64 halvings cover a usize). -/
def nptAux : Nat → Nat → Nat
  | 0, _ => 1
  | fuel + 1, n => if n ≤ 1 then 1 else 2 * nptAux fuel ((n + 1) / 2)

/-- usize next_power_of_two: the least power of two that is ≥ n (1 for 0). -/
def next_power_of_two (n : Nat) : Nat := nptAux 64 n

/-- First-push allocation: a power-of-two capacity fitting the first item,
    at least 16 bytes; the base address comes from the allocator oracle. -/
def DynStack.allocate (item_size : Nat) (s : DynStack) : DynStack :=
  let alloc_size := (next_power_of_two item_size).max 16
  { s with dyn_cap := alloc_size,
           dyn_data := s.oracle.headD 0,
           oracle := s.oracle.tail,
           buf := List.replicate alloc_size 0 }

/-- realloc to new_cap: contents of the old block are preserved, the base
    address may change (next oracle entry). -/
def DynStack.reallocate (new_cap : Nat) (s : DynStack) : DynStack :=
  { s with dyn_cap := new_cap,
           dyn_data := s.oracle.headD 0,
           oracle := s.oracle.tail,
           buf := (s.buf ++ List.replicate (new_cap - s.buf.length) 0).take new_cap }

/-- DynStack::grow: double the capacity; if the base address changed phase
    modulo max_align, shift the contents and adjust every table offset by the
    same delta, wrapping the delta to a forward shift when it is positive or
    would move the first element before the buffer start. none models the
    index panic of offs_table[0] on an empty table. -/
def DynStack.grow (s : DynStack) : Option DynStack :=
  let align_mask := s.max_align - 1
  let prev_align := s.dyn_data &&& align_mask
  let new_cap := s.dyn_cap * 2
  let s1 := DynStack.reallocate new_cap s
  let new_align := s1.dyn_data &&& align_mask
  let align_diff : Int := (new_align : Int) - (prev_align : Int)
  if align_diff = 0 then some s1
  else
    match s1.offs_table with
    | [] => none
    | (o0, _) :: _ =>
      let ad : Int :=
        if 0 < align_diff ∨ (o0 : Int) + align_diff < 0 then
          (((align_diff.emod (2 ^ 64)).toNat &&& align_mask : Nat) : Int)
        else align_diff
      let dst := ((o0 : Int) + ad).toNat
      some { s1 with
        buf := memMove s1.buf o0 dst s1.dyn_size,
        offs_table := s1.offs_table.map
          (fun p => ((p.1 + (ad.emod (2 ^ 64)).toNat) % 2 ^ 64, p.2)),
        shifts := s1.shifts ++ [⟨o0, ad, s1.dyn_size, new_cap⟩] }

/-- The placement loop of DynStack::push: compute the aligned offset for the
    item; grow until the item fits; return the state after all growths
    together with the chosen align_offs. fuel bounds the loop unrolling. -/
def DynStack.pushLoop (d : Desc) (fuel : Nat) (s : DynStack) :
    Option (DynStack × Nat) :=
  match fuel with
  | 0 => none
  | fuel' + 1 =>
    let curr_ptr := s.dyn_data + s.dyn_size
    let aligned_ptr := align_up curr_ptr d.align
    let align_offs := aligned_ptr - curr_ptr
    if s.dyn_cap < s.dyn_size + align_offs + d.size then
      match DynStack.grow s with
      | none => none
      | some s1 => DynStack.pushLoop d fuel' s1
    else
      some (s, align_offs)

/-- DynStack::push: allocate on first use, find an aligned placement (growing
    as needed), copy the payload bytes in, append (offset, descriptor) to the
    table, account the size, and update max_align. -/
def DynStack.push (p : Payload) (fuel : Nat) (s : DynStack) : Option DynStack :=
  let s0 := if s.dyn_data = 0 then DynStack.allocate p.desc.size s else s
  match DynStack.pushLoop p.desc fuel s0 with
  | none => none
  | some (s1, align_offs) =>
    some { s1 with
      buf := bufWrite s1.buf (s1.dyn_size + align_offs) p.bytes,
      offs_table := s1.offs_table ++ [(s1.dyn_size + align_offs, p.desc)],
      dyn_size := s1.dyn_size + align_offs + p.desc.size,
      max_align := p.desc.align.max s1.max_align }

/-- usize wrapping subtraction of 1, as in len().wrapping_sub(1). -/
def wrapSubOne (n : Nat) : Nat := (n + (2 ^ 64 - 1)) % 2 ^ 64

/-- len(): number of records in the offset table. -/
def DynStack.len (s : DynStack) : Nat := s.offs_table.length

/-- get: bounds-checked lookup recomposing the fat pointer
    (dyn_data + offset, descriptor). -/
def DynStack.get (s : DynStack) (index : Nat) : Option (Nat × Desc) :=
  (s.offs_table[index]?).map fun item => (s.dyn_data + item.1, item.2)

/-- get_mut: same recomposition as get, through a mutable pointer. -/
def DynStack.get_mut (s : DynStack) (index : Nat) : Option (Nat × Desc) :=
  (s.offs_table[index]?).map fun item => (s.dyn_data + item.1, item.2)

/-- peek: get at len().wrapping_sub(1). -/
def DynStack.peek (s : DynStack) : Option (Nat × Desc) :=
  DynStack.get s (wrapSubOne (DynStack.len s))

/-- peek_mut: get_mut at len().wrapping_sub(1). -/
def DynStack.peek_mut (s : DynStack) : Option (Nat × Desc) :=
  DynStack.get_mut s (wrapSubOne (DynStack.len s))

/-- Observable behavior of the reference get returns at an index: the payload
    bytes it dereferences to together with the dispatch descriptor. -/
def DynStack.observe (s : DynStack) (index : Nat) : Option (List Nat × Desc) :=
  (s.offs_table[index]?).map fun item =>
    (readBuf s.buf item.1 item.2.size, item.2)

/-- Observable behavior of the reference peek returns. -/
def DynStack.observePeek (s : DynStack) : Option (List Nat × Desc) :=
  DynStack.observe s (wrapSubOne (DynStack.len s))

/-- remove_last: drop in place the element peek_mut designates (ghost
    recorded by its tag in drops), pop the last table record, and shrink
    dyn_size back to that record offset; false on an empty stack. -/
def DynStack.remove_last (s : DynStack) : Bool × DynStack :=
  match s.offs_table[wrapSubOne (DynStack.len s)]? with
  | none => (false, s)
  | some item =>
    match s.offs_table.getLast? with
    | none => (false, s)
    | some last =>
      (true, { s with drops := s.drops ++ [item.2.tag],
                      offs_table := s.offs_table.dropLast,
                      dyn_size := last.1 })

/-- n iterations of the Drop loop body: while remove_last() succeeds. -/
def DynStack.dropN : Nat → DynStack → DynStack
  | 0, s => s
  | n + 1, s =>
    if (DynStack.remove_last s).1 then DynStack.dropN n (DynStack.remove_last s).2
    else s

/-- The Drop impl: run the removal loop (each successful remove_last shrinks
    the table by one record, so len iterations reach the empty table and the
    loop condition turns false), then deallocate the arena (ghost freed). -/
def DynStack.dropStack (s : DynStack) : DynStack :=
  { DynStack.dropN (DynStack.len s) s with freed := true }

/-- A public mutating operation of the container. -/
inductive Op where
  | pushOp (p : Payload) (fuel : Nat)
  | removeOp
deriving DecidableEq, Repr

/-- One operation step; a removal returning false or a push that aborts
    (fuel exhaustion or the grow index panic) ends the run with none. -/
def stepOp : Op → DynStack → Option DynStack
  | .pushOp p fuel, s => DynStack.push p fuel s
  | .removeOp, s =>
    if (DynStack.remove_last s).1 then some (DynStack.remove_last s).2 else none

/-- Run a list of operations; some only when every push succeeded and every
    removal returned true. -/
def runStrict : List Op → DynStack → Option DynStack
  | [], s => some s
  | op :: ops, s =>
    match stepOp op s with
    | none => none
    | some s1 => runStrict ops s1

/-- Number of push operations in a list. -/
def countPushes : List Op → Nat
  | [] => 0
  | .pushOp _ _ :: ops => countPushes ops + 1
  | .removeOp :: ops => countPushes ops

/-- Number of remove operations in a list. -/
def countRemoves : List Op → Nat
  | [] => 0
  | .pushOp _ _ :: ops => countRemoves ops
  | .removeOp :: ops => countRemoves ops + 1

/-- Every live payload address (base + recorded offset) satisfies the
    alignment requirement of its descriptor. -/
def alignedOk (s : DynStack) : Bool :=
  s.offs_table.all fun item =>
    decide ((s.dyn_data + item.1) % item.2.align = 0)

/-- The recorded offsets are non-decreasing. -/
def offsetsMono : List (Nat × Desc) → Bool
  | [] => true
  | [_] => true
  | a :: b :: t => decide (a.1 ≤ b.1) && offsetsMono (b :: t)

/-- Structural invariant of claim C10: len equals the record count, offsets
    are non-decreasing in insertion order, each element byte region lies
    inside [0, dyn_size], and dyn_size ≤ dyn_cap once the arena exists. -/
def structOk (s : DynStack) : Bool :=
  decide (DynStack.len s = s.offs_table.length)
  && offsetsMono s.offs_table
  && (s.offs_table.all fun item => decide (item.1 + item.2.size ≤ s.dyn_size))
  && (decide (s.dyn_data = 0) || decide (s.dyn_size ≤ s.dyn_cap))

/-- Both byte ranges of a corrective shift lie inside [0, cap) and the
    destination does not precede the buffer start. -/
def shiftInBounds (ev : ShiftEv) : Bool :=
  decide (ev.src + ev.len ≤ ev.cap)
  && decide (0 ≤ (ev.src : Int) + ev.delta)
  && decide ((ev.src : Int) + ev.delta + ev.len ≤ ev.cap)

/-- All allocator-returned base addresses are 16-aligned, matching the
    Layout alignment 16 the source allocates and reallocates with. -/
def OracleGood (l : List Nat) : Prop := ∀ b ∈ l, b % 16 = 0

/-- Operation restriction of the amended claim C5: pushed payloads have
    power-of-two alignment at most the default arena alignment 16. -/
def GoodOp : Op → Prop
  | .pushOp p _ => p.desc.align ∈ ([1, 2, 4, 8, 16] : List Nat)
  | .removeOp => True

/-- Invariant driving the amended claim C5: with only small alignments the
    arena never realigns, the first element always sits at offset 0, and an
    empty table forces dyn_size = 0. -/
def Inv16 (s : DynStack) : Prop :=
  s.max_align = 16 ∧ s.dyn_data % 16 = 0 ∧ OracleGood s.oracle ∧
  (s.offs_table = [] → s.dyn_size = 0) ∧
  (∀ item ∈ s.offs_table.head?, item.1 = 0)

/-- A 64-byte, 64-aligned payload (like the Aligned64 type of test_align). -/
def p64 : Payload := ⟨⟨64, 64, 3⟩, List.replicate 64 2⟩

/-- A one-byte payload holding the byte 9. -/
def pByte9 : Payload := ⟨⟨1, 1, 4⟩, [9]⟩

/-- Fresh stack, allocator returning base 64 (64-aligned) then 80 (only
    16-aligned), after pushing p64: the payload sits at offset 0, address 64. -/
def c1AfterFirst : DynStack :=
  (DynStack.push p64 2 (DynStack.initial [64, 80])).getD (DynStack.initial [])

/-- The same stack after also pushing one byte: that push doubles the
    capacity, the reallocation moves the base from 64 to 80 (phase 0 to 16
    modulo max_align = 64) and grow shifts the contents by +16. -/
def c1AfterSecond : DynStack :=
  (DynStack.push pByte9 2 c1AfterFirst).getD (DynStack.initial [])

/-- A 32-byte, 32-aligned payload whose bytes are all 1. -/
def v1 : Payload := ⟨⟨32, 32, 1⟩, List.replicate 32 1⟩

/-- A one-byte payload holding the byte 7. -/
def v2 : Payload := ⟨⟨1, 1, 2⟩, [7]⟩

/-- Fresh stack, allocator bases 32 then 48, after pushing v1: v1 occupies
    offsets 0..32 of a 32-byte arena based at address 32. -/
def c2AfterFirst : DynStack :=
  (DynStack.push v1 2 (DynStack.initial [32, 48])).getD (DynStack.initial [])

/-- The same stack after pushing v2: the push grows the arena to 64 bytes at
    base 48 (phase 16 modulo 32), grow shifts the live bytes forward by 16
    without advancing dyn_size, and the byte of v2 is then written at offset
    32, inside the shifted bytes of v1. -/
def c2AfterPushes : DynStack :=
  (DynStack.push v2 2 c2AfterFirst).getD (DynStack.initial [])

/-- A 32-byte, 32-aligned payload whose bytes are all 3. -/
def q1 : Payload := ⟨⟨32, 32, 5⟩, List.replicate 32 3⟩

/-- Fresh stack, allocator base 48 (16-aligned, not 32-aligned): pushing q1
    places it at offset 16 (leading padding), and removing it shrinks
    dyn_size back to 16, not 0. -/
def c5End : DynStack :=
  (runStrict [.pushOp q1 3, .removeOp] (DynStack.initial [48, 48])).getD
    (DynStack.initial [])

/-- A zero-sized payload with alignment 64 (a 64-aligned ZST). -/
def pZst64 : Payload := ⟨⟨0, 64, 6⟩, []⟩

/-- A one-byte payload holding the byte 8. -/
def pByte8 : Payload := ⟨⟨1, 1, 7⟩, [8]⟩

/-- Push the 64-aligned ZST (landing at offset 48 of a 64-byte arena based
    at 16), then 17 single bytes: the last one grows the arena to 128 bytes
    at base 48, and grow copies 64 bytes from offset 48 to offset 80. -/
def c6Ops : List Op := [.pushOp pZst64 4] ++ List.replicate 17 (.pushOp pByte8 4)

/-- The state reached by c6Ops from a fresh stack with allocator bases
    16, 16, 16, 48. -/
def c6End : DynStack :=
  (runStrict c6Ops (DynStack.initial [16, 16, 16, 48])).getD (DynStack.initial [])

/-- A one-byte payload holding the byte 5, used by witness states. -/
def wByte5 : Payload := ⟨⟨1, 1, 10⟩, [5]⟩

/-- Fresh stack with allocator base 16, after pushing wByte5. -/
def c3End : DynStack :=
  (DynStack.push wByte5 2 (DynStack.initial [16])).getD (DynStack.initial [])

/-- A small two-element stack state used by the witness of claim C4. -/
def c4Start : DynStack :=
  { offs_table := [(0, ⟨1, 1, 21⟩), (1, ⟨1, 1, 22⟩)], dyn_data := 16,
    dyn_size := 2, dyn_cap := 16, max_align := 16,
    buf := List.replicate 16 0, oracle := [], drops := [], shifts := [],
    freed := false }

/-- Operation list of the witness of the amended claim C5: one small push
    followed by one removal. -/
def c5wOps : List Op := [.pushOp wByte5 2, .removeOp]

/-- The state c5wOps reaches from a fresh stack with allocator base 16. -/
def c5wEnd : DynStack :=
  (runStrict c5wOps (DynStack.initial [16])).getD (DynStack.initial [])

/-- Claim C1: every stored payload address satisfies its alignment at all
    times, including immediately after a growth. Refuted on the code: after
    pushing a 64-byte 64-aligned payload at base 64 and then one byte, the
    growth reallocates to base 80 and grow shifts by new_align - prev_align
    (+16) instead of the corrective prev_align - new_align (+48 modulo 64),
    leaving the 64-aligned payload at address 96, which is 32 modulo 64. -/
theorem c1_misaligned_after_growth :
    alignedOk c1AfterFirst = true ∧
    DynStack.push pByte9 2 c1AfterFirst = some c1AfterSecond ∧
    c1AfterSecond.offs_table[0]? = some (16, p64.desc) ∧
    (c1AfterSecond.dyn_data + 16) % p64.desc.align = 32 := by decide

/-- Claim C2: pushing v1, v2 then repeatedly peeking and removing yields
    v2 then v1. Refuted on the code: the growth triggered by pushing v2
    shifts the live bytes forward by 16 without advancing dyn_size, so the
    byte of v2 is written inside v1; the first peek observes v2 intact, but
    after removing it the next peek observes corrupted bytes, not v1. -/
theorem c2_lifo_value_corrupted :
    DynStack.observePeek c2AfterPushes = some (v2.bytes, v2.desc) ∧
    DynStack.observePeek (DynStack.remove_last c2AfterPushes).2 ≠
      some (v1.bytes, v1.desc) := by decide

/-- Claim C5, counterexample to the second half: pushing one 32-aligned
    payload on an arena based at 48 places it at offset 16, and removing it
    (m = 1 push, r = 1 successful removal) leaves dyn_size = 16, not 0. -/
theorem c5_counterexample :
    runStrict [.pushOp q1 3, .removeOp] (DynStack.initial [48, 48]) =
      some c5End ∧
    DynStack.len c5End = 0 ∧ c5End.dyn_size = 16 := by decide

/-- Claim C6: whenever grow performs the corrective shift, the source and
    destination ranges lie within [0, new capacity). Refuted on the code:
    in the run c6Ops the final growth copies 64 bytes from offset 48 to
    offset 80 of a 128-byte buffer, writing bytes 80..143 where 128..143 are
    outside the arena. -/
theorem c6_shift_range_exceeds_capacity :
    runStrict c6Ops (DynStack.initial [16, 16, 16, 48]) = some c6End ∧
    c6End.shifts = [⟨48, 32, 64, 128⟩] ∧
    (c6End.shifts.all shiftInBounds) = false := by decide

/-- Claim C10: every public operation preserves the structural invariant.
    Refuted on the code: the state after pushing v1 satisfies it, but the
    push of v2 (whose growth shifts the contents forward without advancing
    dyn_size) leaves the byte region of v1 at offsets 16..47 while dyn_size
    is 33, so a region escapes [0, dyn_size]. -/
theorem c10_structural_invariant_broken :
    structOk c2AfterFirst = true ∧
    DynStack.push v2 2 c2AfterFirst = some c2AfterPushes ∧
    structOk c2AfterPushes = false := by decide

/-- Claim C8, counterexample: a slice element type is concrete (not an
    interface type), yet its pointer is two words, so construction succeeds
    instead of panicking. -/
theorem c8_slice_not_rejected :
    DynStack.new TyKind.slice [] = some (DynStack.initial []) ∧
    TyKind.slice ≠ TyKind.traitObject := by decide

/-- Claim C8, amended: construction succeeds exactly when a pointer to the
    element type is two machine words wide, i.e. for trait objects and for
    slices; all thin-pointer (Sized) element types are rejected. -/
theorem c8_two_word_pointer_iff (k : TyKind) (oracle : List Nat) :
    (DynStack.new k oracle).isSome ↔
      (k = TyKind.traitObject ∨ k = TyKind.slice) := by
  cases k <;> simp [DynStack.new, ptrSizeBytes]

/-- Claim C9, counterexample: on usize the sum num + align - 1 wraps, so at
    n = 2 ^ 64 - 1 with a = 4 the function returns 0, which is not a
    multiple of 4 that is ≥ n. -/
theorem c9_overflow_counterexample :
    align_up_usize (2 ^ 64 - 1) 4 = 0 ∧
    ¬ (2 ^ 64 - 1 ≤ align_up_usize (2 ^ 64 - 1) 4) := by decide

theorem ctzAux_two_pow : ∀ fuel k, k ≤ fuel → ctzAux fuel (2 ^ k) = k := by
  intro fuel
  induction fuel with
  | zero => intro k hk; interval_cases k; rfl
  | succ fuel ih =>
    intro k hk
    cases k with
    | zero => simp [ctzAux]
    | succ k =>
      have h2 : 2 ^ (k + 1) % 2 = 0 := by
        rw [pow_succ]; exact Nat.mul_mod_left _ _
      have h3 : 2 ^ (k + 1) / 2 = 2 ^ k := by
        rw [pow_succ]; exact Nat.mul_div_cancel _ (by decide)
      simp only [ctzAux, h2, h3]
      rw [if_neg (by omega)]
      rw [ih k (by omega)]

theorem ctz_two_pow (k : Nat) (hk : k ≤ 64) : ctz (2 ^ k) = k := by
  unfold ctz
  rw [if_neg (Nat.two_pow_pos k).ne']
  exact ctzAux_two_pow 64 k hk

theorem align_up_two_pow (n k : Nat) (hk : k ≤ 64) :
    align_up n (2 ^ k) = (n + 2 ^ k - 1) / 2 ^ k * 2 ^ k := by
  unfold align_up
  rw [ctz_two_pow k hk, Nat.shiftRight_eq_div_pow, Nat.shiftLeft_eq]

theorem align_up_le_spec (n k : Nat) (hk : k ≤ 64) :
    2 ^ k ∣ align_up n (2 ^ k) ∧ n ≤ align_up n (2 ^ k) ∧
      ∀ m, 2 ^ k ∣ m → n ≤ m → align_up n (2 ^ k) ≤ m := by
  have ha : 0 < 2 ^ k := Nat.two_pow_pos k
  rw [align_up_two_pow n k hk]
  refine ⟨dvd_mul_left _ _, ?_, ?_⟩
  · have hdm := Nat.div_add_mod (n + 2 ^ k - 1) (2 ^ k)
    have hml := Nat.mod_lt (n + 2 ^ k - 1) ha
    have hcomm := Nat.mul_comm (2 ^ k) ((n + 2 ^ k - 1) / 2 ^ k)
    omega
  · intro m hdvd hnm
    obtain ⟨c, rfl⟩ := hdvd
    have h6 : (n + 2 ^ k - 1) / 2 ^ k ≤ c := by
      by_contra hq
      push_neg at hq
      have h7 : 2 ^ k * (c + 1) ≤ 2 ^ k * ((n + 2 ^ k - 1) / 2 ^ k) :=
        Nat.mul_le_mul_left _ hq
      have h8 : 2 ^ k * (c + 1) = 2 ^ k * c + 2 ^ k := by ring
      have hdm := Nat.div_add_mod (n + 2 ^ k - 1) (2 ^ k)
      have hml := Nat.mod_lt (n + 2 ^ k - 1) ha
      omega
    calc (n + 2 ^ k - 1) / 2 ^ k * 2 ^ k ≤ c * 2 ^ k :=
          Nat.mul_le_mul_right _ h6
      _ = 2 ^ k * c := Nat.mul_comm c (2 ^ k)

theorem align_up_of_dvd (n k : Nat) (hk : k ≤ 64) (h : 2 ^ k ∣ n) :
    align_up n (2 ^ k) = n := by
  have spec := align_up_le_spec n k hk
  exact Nat.le_antisymm (spec.2.2 n h le_rfl) spec.2.1

/-- Claim C9, amended: for every power-of-two alignment and every n for
    which the usize sum num + align - 1 does not overflow, align_up returns
    the smallest multiple of the alignment that is at least n; and the
    concrete check for alignment 4 over 0..9 yields 0,4,4,4,4,8,8,8,8. -/
theorem c9_align_up_least_multiple :
    (∀ n k, n + 2 ^ k - 1 < 2 ^ 64 →
      (2 ^ k ∣ align_up_usize n (2 ^ k) ∧ n ≤ align_up_usize n (2 ^ k) ∧
        ∀ m, 2 ^ k ∣ m → n ≤ m → align_up_usize n (2 ^ k) ≤ m)) ∧
    (List.range 9).map (fun x => align_up_usize x 4) =
      [0, 4, 4, 4, 4, 8, 8, 8, 8] := by
  constructor
  · intro n k hov
    have hpos : 0 < 2 ^ k := Nat.two_pow_pos k
    have h2k : 2 ^ k ≤ 2 ^ 64 := by omega
    have hk : k ≤ 64 := by
      by_contra hgt
      push_neg at hgt
      have := Nat.pow_lt_pow_right (a := 2) (by omega) hgt
      omega
    have heq : align_up_usize n (2 ^ k) = align_up n (2 ^ k) := by
      unfold align_up_usize align_up
      rw [Nat.mod_eq_of_lt hov]
    rw [heq]
    exact align_up_le_spec n k hk
  · decide

/-- Witness instantiating the amended claim C9 at n = 5, a = 4. -/
theorem c9_align_up_least_multiple_witness :
    2 ^ 2 ∣ align_up_usize 5 (2 ^ 2) ∧ 5 ≤ align_up_usize 5 (2 ^ 2) := by
  have h := c9_align_up_least_multiple.1 5 2 (by norm_num)
  exact ⟨h.1, h.2.1⟩

/-- Claim C7: peek behaves as get(len - 1) and peek_mut as get_mut(len - 1),
    and on an empty container both return none: the wrapping index
    len.wrapping_sub(1) is 2 ^ 64 - 1 there, which no table of realizable
    length (< 2 ^ 64 records) can reach, so there is no false positive. -/
theorem c7_peek_is_get_pred (s : DynStack) (h : DynStack.len s < 2 ^ 64) :
    (DynStack.len s = 0 →
      DynStack.peek s = none ∧ DynStack.peek_mut s = none) ∧
    (0 < DynStack.len s →
      DynStack.peek s = DynStack.get s (DynStack.len s - 1) ∧
      DynStack.peek_mut s = DynStack.get_mut s (DynStack.len s - 1)) := by
  constructor
  · intro h0
    have ht : s.offs_table = [] := List.length_eq_zero.mp h0
    simp [DynStack.peek, DynStack.peek_mut, DynStack.get, DynStack.get_mut, ht]
  · intro h1
    have hw : wrapSubOne (DynStack.len s) = DynStack.len s - 1 := by
      unfold wrapSubOne
      have h64 : (2 : Nat) ^ 64 = 18446744073709551616 := by norm_num
      rw [h64]
      rw [h64] at h
      omega
    rw [DynStack.peek, DynStack.peek_mut, hw]
    exact ⟨rfl, rfl⟩

/-- Witness instantiating claim C7 on a one-element stack and on the empty
    stack. -/
theorem c7_peek_is_get_pred_witness :
    DynStack.peek c3End = DynStack.get c3End (DynStack.len c3End - 1) ∧
    DynStack.peek (DynStack.initial []) = none :=
  ⟨((c7_peek_is_get_pred c3End (by decide)).2 (by decide)).1,
   ((c7_peek_is_get_pred (DynStack.initial []) (by decide)).1 (by decide)).1⟩

theorem remove_last_nonempty (s : DynStack) (h : s.offs_table ≠ [])
    (hlen : s.offs_table.length ≤ 2 ^ 64) :
    DynStack.remove_last s =
      (true, { s with
        drops := s.drops ++ [(s.offs_table.getLast h).2.tag],
        offs_table := s.offs_table.dropLast,
        dyn_size := (s.offs_table.getLast h).1 }) := by
  have hpos : 0 < s.offs_table.length := List.length_pos.mpr h
  have hw : wrapSubOne (DynStack.len s) = s.offs_table.length - 1 := by
    unfold wrapSubOne DynStack.len
    have h64 : (2 : Nat) ^ 64 = 18446744073709551616 := by norm_num
    rw [h64]
    rw [h64] at hlen
    omega
  unfold DynStack.remove_last
  rw [hw]
  rw [List.getElem?_eq_getElem (by omega)]
  rw [List.getLast?_eq_getLast _ h]
  rw [List.getLast_eq_getElem]

theorem dropN_spec : ∀ (n : Nat) (s : DynStack), s.offs_table.length = n →
    n ≤ 2 ^ 64 →
    (DynStack.dropN n s).drops =
      s.drops ++ (s.offs_table.map (fun item => item.2.tag)).reverse ∧
    (DynStack.dropN n s).offs_table = [] ∧
    (DynStack.dropN n s).freed = s.freed := by
  intro n
  induction n with
  | zero =>
    intro s hn _
    have ht : s.offs_table = [] := List.length_eq_zero.mp hn
    simp [DynStack.dropN, ht]
  | succ n ih =>
    intro s hn hle
    have h : s.offs_table ≠ [] := by
      intro he
      rw [he] at hn
      simp at hn
    rw [DynStack.dropN]
    rw [remove_last_nonempty s h (by omega)]
    simp only [if_true]
    set s1 : DynStack :=
      { s with
        drops := s.drops ++ [(s.offs_table.getLast h).2.tag],
        offs_table := s.offs_table.dropLast,
        dyn_size := (s.offs_table.getLast h).1 } with hs1
    have hlen1 : s1.offs_table.length = n := by
      rw [hs1]
      simp [List.length_dropLast, hn]
    obtain ⟨hd, ht, hf⟩ := ih s1 hlen1 (by omega)
    refine ⟨?_, ht, hf⟩
    rw [hd, hs1]
    have hdecomp := List.dropLast_concat_getLast h
    conv_rhs => rw [← hdecomp]
    simp [List.reverse_append]

/-- Claim C4: dropping the container runs the destruction capability of
    each live payload exactly once, in strict reverse insertion order (the
    drop log extends by the reversed tag sequence of the table, which lists
    live elements in insertion order), leaves no element behind, and then
    releases the arena memory. -/
theorem c4_drop_lifo (s : DynStack) (h : s.offs_table.length ≤ 2 ^ 64) :
    (DynStack.dropStack s).drops =
      s.drops ++ (s.offs_table.map (fun item => item.2.tag)).reverse ∧
    (DynStack.dropStack s).offs_table = [] ∧
    (DynStack.dropStack s).freed = true := by
  obtain ⟨h1, h2, _⟩ := dropN_spec (DynStack.len s) s rfl h
  exact ⟨h1, h2, rfl⟩

/-- Witness instantiating claim C4 on a concrete two-element stack. -/
theorem c4_drop_lifo_witness :
    (DynStack.dropStack c4Start).drops =
      c4Start.drops ++ (c4Start.offs_table.map (fun item => item.2.tag)).reverse ∧
    (DynStack.dropStack c4Start).offs_table = [] ∧
    (DynStack.dropStack c4Start).freed = true :=
  c4_drop_lifo c4Start (by norm_num [c4Start])

theorem bufWrite_length (buf : List Nat) (off : Nat) (bs : List Nat) :
    (bufWrite buf off bs).length = buf.length := by
  unfold bufWrite
  simp only [List.length_take, List.length_append, List.length_drop]
  omega

theorem readBuf_bufWrite (buf : List Nat) (off : Nat) (bs : List Nat)
    (h : off + bs.length ≤ buf.length) :
    readBuf (bufWrite buf off bs) off bs.length = bs := by
  unfold readBuf bufWrite
  have hoff : (buf.take off).length = off := by
    simp [List.length_take]
    omega
  have hlt : (buf.take off ++ bs ++ buf.drop (off + bs.length)).length
      = buf.length := by
    simp only [List.length_append, List.length_take, List.length_drop]
    omega
  rw [← hlt, List.take_length, List.append_assoc, List.drop_left' hoff,
    List.take_left]

theorem reallocate_fields (n : Nat) (s : DynStack) :
    (DynStack.reallocate n s).buf.length = (DynStack.reallocate n s).dyn_cap ∧
    (DynStack.reallocate n s).dyn_size = s.dyn_size ∧
    (DynStack.reallocate n s).offs_table = s.offs_table ∧
    (DynStack.reallocate n s).max_align = s.max_align := by
  unfold DynStack.reallocate
  refine ⟨?_, rfl, rfl, rfl⟩
  simp only [List.length_take, List.length_append, List.length_replicate]
  omega

theorem grow_fields (s s2 : DynStack) (h : DynStack.grow s = some s2) :
    s2.buf.length = s2.dyn_cap ∧ s2.dyn_size = s.dyn_size := by
  simp only [DynStack.grow] at h
  obtain ⟨hb, hs, -, -⟩ := reallocate_fields (s.dyn_cap * 2) s
  split at h
  · cases h
    exact ⟨hb, hs⟩
  · split at h
    · cases h
    · cases h
      refine ⟨?_, hs⟩
      rw [memMove]
      rw [bufWrite_length]
      exact hb

theorem pushLoop_fits (d : Desc) : ∀ (fuel : Nat) (s s1 : DynStack) (a : Nat),
    DynStack.pushLoop d fuel s = some (s1, a) →
    s.buf.length = s.dyn_cap →
    s1.buf.length = s1.dyn_cap ∧ s1.dyn_size + a + d.size ≤ s1.dyn_cap := by
  intro fuel
  induction fuel with
  | zero =>
    intro s s1 a h _
    simp [DynStack.pushLoop] at h
  | succ fuel ih =>
    intro s s1 a h hb
    rw [DynStack.pushLoop] at h
    by_cases hc : s.dyn_cap <
        s.dyn_size +
          (align_up (s.dyn_data + s.dyn_size) d.align - (s.dyn_data + s.dyn_size)) +
          d.size
    · rw [if_pos hc] at h
      cases hg : DynStack.grow s with
      | none => rw [hg] at h; cases h
      | some s2 =>
        rw [hg] at h
        obtain ⟨hb2, -⟩ := grow_fields s s2 hg
        exact ih s2 s1 a h hb2
    · rw [if_neg hc] at h
      cases h
      exact ⟨hb, by omega⟩

/-- Claim C3: immediately after a successful push, get at index len - 1
    returns a reference whose observable behavior, payload bytes and
    dispatch descriptor, is exactly that of the pushed value. -/
theorem c3_push_get_roundtrip (p : Payload) (fuel : Nat) (s s2 : DynStack)
    (hb : s.buf.length = s.dyn_cap)
    (hl : p.bytes.length = p.desc.size)
    (hp : DynStack.push p fuel s = some s2) :
    DynStack.observe s2 (DynStack.len s2 - 1) = some (p.bytes, p.desc) := by
  rw [DynStack.push] at hp
  set s0 := if s.dyn_data = 0 then DynStack.allocate p.desc.size s else s with hs0
  have hb0 : s0.buf.length = s0.dyn_cap := by
    rw [hs0]
    split
    · simp [DynStack.allocate]
    · exact hb
  cases hpl : DynStack.pushLoop p.desc fuel s0 with
  | none => rw [hpl] at hp; cases hp
  | some pr =>
    obtain ⟨s1, a⟩ := pr
    rw [hpl] at hp
    obtain ⟨hb1, hle⟩ := pushLoop_fits p.desc fuel s0 s1 a hpl hb0
    cases hp
    unfold DynStack.observe DynStack.len
    rw [List.length_append]
    have hidx : s1.offs_table.length + [(s1.dyn_size + a, p.desc)].length - 1
        = s1.offs_table.length := by simp
    rw [hidx, List.getElem?_concat_length, Option.map_some']
    rw [← hl]
    rw [readBuf_bufWrite s1.buf (s1.dyn_size + a) p.bytes (by omega)]

/-- Witness instantiating claim C3: a one-byte push on a fresh stack. -/
theorem c3_push_get_roundtrip_witness :
    DynStack.observe c3End (DynStack.len c3End - 1) =
      some (wByte5.bytes, wByte5.desc) :=
  c3_push_get_roundtrip wByte5 2 (DynStack.initial [16]) c3End rfl rfl (by decide)

theorem mem_pows {a : Nat} (h : a ∈ ([1, 2, 4, 8, 16] : List Nat)) :
    ∃ k, k ≤ 4 ∧ a = 2 ^ k := by
  simp at h
  rcases h with h | h | h | h | h
  · exact ⟨0, by omega, by rw [h]; norm_num⟩
  · exact ⟨1, by omega, by rw [h]; norm_num⟩
  · exact ⟨2, by omega, by rw [h]; norm_num⟩
  · exact ⟨3, by omega, by rw [h]; norm_num⟩
  · exact ⟨4, by omega, by rw [h]; norm_num⟩

theorem and_mask15 (x : Nat) (h : x % 16 = 0) : x &&& 15 = 0 := by
  have h16 : (15 : Nat) = 2 ^ 4 - 1 := by norm_num
  rw [h16, Nat.and_pow_two_sub_one_eq_mod]
  norm_num
  omega

theorem oracle_headD {l : List Nat} (h : OracleGood l) : l.headD 0 % 16 = 0 := by
  cases l with
  | nil => rfl
  | cons b t => exact h b (by simp)

theorem oracle_tail {l : List Nat} (h : OracleGood l) : OracleGood l.tail := by
  intro b hb
  cases l with
  | nil => cases hb
  | cons x t => exact h b (List.mem_cons_of_mem x hb)

theorem grow_inv16 (s s2 : DynStack) (hI : Inv16 s)
    (hg : DynStack.grow s = some s2) :
    Inv16 s2 ∧ s2.offs_table = s.offs_table ∧ s2.dyn_size = s.dyn_size ∧
      s2.max_align = s.max_align := by
  obtain ⟨hma, hd, ho, he, hh⟩ := hI
  have hprev : s.dyn_data &&& (s.max_align - 1) = 0 := by
    rw [hma]
    exact and_mask15 _ hd
  have hnewd : (DynStack.reallocate (s.dyn_cap * 2) s).dyn_data % 16 = 0 := by
    unfold DynStack.reallocate
    exact oracle_headD ho
  have hnew : (DynStack.reallocate (s.dyn_cap * 2) s).dyn_data &&&
      (s.max_align - 1) = 0 := by
    rw [hma]
    exact and_mask15 _ hnewd
  simp only [DynStack.grow, hprev, hnew] at hg
  norm_num at hg
  cases hg
  refine ⟨⟨hma, hnewd, ?_, he, hh⟩, rfl, rfl, rfl⟩
  unfold DynStack.reallocate
  exact oracle_tail ho

theorem allocate_inv16 (n : Nat) (s : DynStack) (hI : Inv16 s) :
    Inv16 (DynStack.allocate n s) ∧
    (DynStack.allocate n s).offs_table = s.offs_table ∧
    (DynStack.allocate n s).dyn_size = s.dyn_size ∧
    (DynStack.allocate n s).max_align = s.max_align := by
  obtain ⟨hma, hd, ho, he, hh⟩ := hI
  exact ⟨⟨hma, oracle_headD ho, oracle_tail ho, he, hh⟩, rfl, rfl, rfl⟩

theorem pushLoop_inv16 (d : Desc) : ∀ (fuel : Nat) (s s1 : DynStack) (a : Nat),
    DynStack.pushLoop d fuel s = some (s1, a) → Inv16 s →
    Inv16 s1 ∧ s1.offs_table = s.offs_table ∧ s1.dyn_size = s.dyn_size ∧
      s1.max_align = s.max_align ∧
      a = align_up (s1.dyn_data + s1.dyn_size) d.align -
          (s1.dyn_data + s1.dyn_size) := by
  intro fuel
  induction fuel with
  | zero =>
    intro s s1 a h _
    simp [DynStack.pushLoop] at h
  | succ fuel ih =>
    intro s s1 a h hI
    rw [DynStack.pushLoop] at h
    by_cases hc : s.dyn_cap <
        s.dyn_size +
          (align_up (s.dyn_data + s.dyn_size) d.align - (s.dyn_data + s.dyn_size)) +
          d.size
    · rw [if_pos hc] at h
      cases hg : DynStack.grow s with
      | none => rw [hg] at h; cases h
      | some s2 =>
        rw [hg] at h
        obtain ⟨hI2, ht2, hs2, hm2⟩ := grow_inv16 s s2 hI hg
        obtain ⟨hI1, ht1, hs1, hm1, ha1⟩ := ih s2 s1 a h hI2
        exact ⟨hI1, ht1.trans ht2, hs1.trans hs2, hm1.trans hm2, ha1⟩
    · rw [if_neg hc] at h
      cases h
      exact ⟨hI, rfl, rfl, rfl, rfl⟩

theorem push_inv16 (p : Payload) (fuel : Nat) (s s2 : DynStack)
    (hp : DynStack.push p fuel s = some s2) (hI : Inv16 s)
    (hal : p.desc.align ∈ ([1, 2, 4, 8, 16] : List Nat)) :
    Inv16 s2 ∧ DynStack.len s2 = DynStack.len s + 1 := by
  obtain ⟨k, hk4, hkeq⟩ := mem_pows hal
  rw [DynStack.push] at hp
  set s0 := if s.dyn_data = 0 then DynStack.allocate p.desc.size s else s with hs0
  have hI0 : Inv16 s0 ∧ s0.offs_table = s.offs_table ∧ s0.dyn_size = s.dyn_size := by
    rw [hs0]
    split
    · obtain ⟨a1, a2, a3, -⟩ := allocate_inv16 p.desc.size s hI
      exact ⟨a1, a2, a3⟩
    · exact ⟨hI, rfl, rfl⟩
  cases hpl : DynStack.pushLoop p.desc fuel s0 with
  | none => rw [hpl] at hp; cases hp
  | some pr =>
    obtain ⟨s1, a⟩ := pr
    rw [hpl] at hp
    obtain ⟨hI1, ht1, hsz1, hm1, ha1⟩ := pushLoop_inv16 p.desc fuel s0 s1 a hpl hI0.1
    obtain ⟨hma1, hd1, ho1, he1, hh1⟩ := hI1
    cases hp
    constructor
    · refine ⟨?_, hd1, ho1, ?_, ?_⟩
      · -- max_align stays 16
        show p.desc.align.max s1.max_align = 16
        rw [hma1, hkeq]
        have hle16 : 2 ^ k ≤ 16 := by
          calc 2 ^ k ≤ 2 ^ 4 := Nat.pow_le_pow_right (by omega) hk4
            _ = 16 := by norm_num
        exact Nat.max_eq_right hle16
      · -- new table is nonempty
        intro habs
        simp at habs
      · -- head offset is 0
        intro item hmem
        cases htab : s1.offs_table with
        | nil =>
          -- first element: placed at offset dyn_size + a = 0 + 0
          have hsz0 : s1.dyn_size = 0 := by
            rw [hsz1]
            exact hI0.1.2.2.2.1 (by rw [← ht1, htab])
          have ha0 : a = 0 := by
            rw [ha1, hsz0, Nat.add_zero, hkeq]
            have hdvd : 2 ^ k ∣ s1.dyn_data := by
              have h16 : (16 : Nat) ∣ s1.dyn_data := Nat.dvd_of_mod_eq_zero hd1
              have hk16 : (2 : Nat) ^ k ∣ 16 := by
                have : (16 : Nat) = 2 ^ 4 := by norm_num
                rw [this]
                exact pow_dvd_pow 2 hk4
              exact hk16.trans h16
            rw [align_up_of_dvd _ k (by omega) hdvd]
            omega
          rw [htab] at hmem
          simp at hmem
          subst hmem
          show s1.dyn_size + a = 0
          rw [hsz0, ha0]
        | cons x t =>
          -- head unchanged
          rw [htab] at hmem
          simp at hmem
          subst hmem
          apply hh1
          rw [htab]
          simp
    · show (s1.offs_table ++ [(s1.dyn_size + a, p.desc)]).length = DynStack.len s + 1
      rw [List.length_append]
      unfold DynStack.len
      rw [ht1, hI0.2.1]
      simp

theorem head?_dropLast_of_inv {l : List (Nat × Desc)}
    (hh : ∀ item ∈ l.head?, item.1 = 0) :
    ∀ item ∈ l.dropLast.head?, item.1 = 0 := by
  intro item hmem
  rw [List.head?_dropLast] at hmem
  split at hmem
  · exact hh item hmem
  · cases hmem

theorem wrapSubOne_lt (n : Nat) (h : 0 < n) : wrapSubOne n < n := by
  unfold wrapSubOne
  have h64 : (2 : Nat) ^ 64 = 18446744073709551616 := by norm_num
  rw [h64]
  omega

theorem remove_last_empty (s : DynStack) (h : s.offs_table = []) :
    DynStack.remove_last s = (false, s) := by
  unfold DynStack.remove_last
  rw [h]
  rfl

theorem remove_last_inv_fields (s : DynStack) (hne : s.offs_table ≠ []) :
    ∃ last, s.offs_table.getLast? = some last ∧
    (DynStack.remove_last s).1 = true ∧
    (DynStack.remove_last s).2.offs_table = s.offs_table.dropLast ∧
    (DynStack.remove_last s).2.dyn_size = last.1 ∧
    (DynStack.remove_last s).2.max_align = s.max_align ∧
    (DynStack.remove_last s).2.dyn_data = s.dyn_data ∧
    (DynStack.remove_last s).2.oracle = s.oracle := by
  have hpos : 0 < s.offs_table.length := List.length_pos.mpr hne
  have hidx : wrapSubOne (DynStack.len s) < s.offs_table.length :=
    wrapSubOne_lt _ hpos
  refine ⟨s.offs_table.getLast hne, List.getLast?_eq_getLast _ hne, ?_⟩
  unfold DynStack.remove_last
  rw [List.getElem?_eq_getElem hidx, List.getLast?_eq_getLast _ hne]
  exact ⟨rfl, rfl, rfl, rfl, rfl, rfl⟩

theorem remove_inv16 (s : DynStack) (h : (DynStack.remove_last s).1 = true)
    (hI : Inv16 s) :
    Inv16 (DynStack.remove_last s).2 ∧
    DynStack.len (DynStack.remove_last s).2 + 1 = DynStack.len s := by
  obtain ⟨hma, hd, ho, he, hh⟩ := hI
  by_cases hne : s.offs_table = []
  · rw [remove_last_empty s hne] at h
    cases h
  · obtain ⟨last, hl, -, ht, hsz, hm, hdd, hor⟩ := remove_last_inv_fields s hne
    constructor
    · refine ⟨by rw [hm]; exact hma, by rw [hdd]; exact hd,
        by rw [hor]; exact ho, ?_, ?_⟩
      · intro hemp
        rw [ht] at hemp
        rw [hsz]
        cases htab : s.offs_table with
        | nil => exact absurd htab hne
        | cons x t =>
          cases t with
          | nil =>
            have hx : x.1 = 0 := hh x (by rw [htab]; rfl)
            rw [htab] at hl
            simp [List.getLast?] at hl
            rw [← hl]
            exact hx
          | cons y u =>
            rw [htab] at hemp
            simp at hemp
      · rw [ht]
        exact head?_dropLast_of_inv hh
    · show DynStack.len (DynStack.remove_last s).2 + 1 = DynStack.len s
      unfold DynStack.len
      rw [ht, List.length_dropLast]
      have := List.length_pos.mpr hne
      omega

theorem runStrict_inv16 : ∀ (ops : List Op) (s s2 : DynStack),
    runStrict ops s = some s2 → Inv16 s → (∀ op ∈ ops, GoodOp op) →
    Inv16 s2 ∧
    DynStack.len s2 + countRemoves ops = DynStack.len s + countPushes ops := by
  intro ops
  induction ops with
  | nil =>
    intro s s2 h hI _
    cases h
    exact ⟨hI, by simp [countRemoves, countPushes]⟩
  | cons op ops ih =>
    intro s s2 h hI hg
    rw [runStrict] at h
    cases hop : stepOp op s with
    | none => rw [hop] at h; cases h
    | some s1 =>
      rw [hop] at h
      have hgop : GoodOp op := hg op (by simp)
      have hgops : ∀ o ∈ ops, GoodOp o := fun o ho => hg o (by simp [ho])
      cases op with
      | pushOp p fuel =>
        have hal : p.desc.align ∈ ([1, 2, 4, 8, 16] : List Nat) := hgop
        obtain ⟨hI1, hlen1⟩ := push_inv16 p fuel s s1 hop hI hal
        obtain ⟨hI2, hlen2⟩ := ih s1 s2 h hI1 hgops
        refine ⟨hI2, ?_⟩
        simp only [countPushes, countRemoves] at hlen2 ⊢
        omega
      | removeOp =>
        rw [stepOp] at hop
        by_cases hr : (DynStack.remove_last s).1
        · rw [if_pos hr] at hop
          cases hop
          obtain ⟨hI1, hlen1⟩ := remove_inv16 s hr hI
          obtain ⟨hI2, hlen2⟩ := ih _ s2 h hI1 hgops
          refine ⟨hI2, ?_⟩
          simp only [countPushes, countRemoves] at hlen2 ⊢
          omega
        · rw [if_neg hr] at hop
          cases hop

theorem grow_table_length (s s2 : DynStack) (h : DynStack.grow s = some s2) :
    s2.offs_table.length = s.offs_table.length := by
  simp only [DynStack.grow] at h
  split at h
  · cases h
    rfl
  · split at h
    · cases h
    · cases h
      show (List.map _ (DynStack.reallocate (s.dyn_cap * 2) s).offs_table).length
        = s.offs_table.length
      rw [List.length_map]
      rfl

theorem pushLoop_table_length (d : Desc) :
    ∀ (fuel : Nat) (s s1 : DynStack) (a : Nat),
    DynStack.pushLoop d fuel s = some (s1, a) →
    s1.offs_table.length = s.offs_table.length := by
  intro fuel
  induction fuel with
  | zero =>
    intro s s1 a h
    simp [DynStack.pushLoop] at h
  | succ fuel ih =>
    intro s s1 a h
    rw [DynStack.pushLoop] at h
    by_cases hc : s.dyn_cap <
        s.dyn_size +
          (align_up (s.dyn_data + s.dyn_size) d.align - (s.dyn_data + s.dyn_size)) +
          d.size
    · rw [if_pos hc] at h
      cases hg : DynStack.grow s with
      | none => rw [hg] at h; cases h
      | some s2 =>
        rw [hg] at h
        rw [ih s2 s1 a h, grow_table_length s s2 hg]
    · rw [if_neg hc] at h
      cases h
      rfl

theorem push_len (p : Payload) (fuel : Nat) (s s2 : DynStack)
    (hp : DynStack.push p fuel s = some s2) :
    DynStack.len s2 = DynStack.len s + 1 := by
  rw [DynStack.push] at hp
  set s0 := if s.dyn_data = 0 then DynStack.allocate p.desc.size s else s with hs0
  have ht0 : s0.offs_table = s.offs_table := by
    rw [hs0]
    split <;> rfl
  cases hpl : DynStack.pushLoop p.desc fuel s0 with
  | none => rw [hpl] at hp; cases hp
  | some pr =>
    obtain ⟨s1, a⟩ := pr
    rw [hpl] at hp
    cases hp
    show (s1.offs_table ++ [(s1.dyn_size + a, p.desc)]).length = DynStack.len s + 1
    rw [List.length_append, pushLoop_table_length p.desc fuel s0 s1 a hpl, ht0]
    simp [DynStack.len]

theorem remove_len (s : DynStack) (h : (DynStack.remove_last s).1 = true) :
    DynStack.len (DynStack.remove_last s).2 + 1 = DynStack.len s := by
  by_cases hne : s.offs_table = []
  · rw [remove_last_empty s hne] at h
    cases h
  · obtain ⟨last, -, -, ht, -, -, -, -⟩ := remove_last_inv_fields s hne
    unfold DynStack.len
    rw [ht, List.length_dropLast]
    have := List.length_pos.mpr hne
    omega

theorem runStrict_len : ∀ (ops : List Op) (s s2 : DynStack),
    runStrict ops s = some s2 →
    DynStack.len s2 + countRemoves ops = DynStack.len s + countPushes ops := by
  intro ops
  induction ops with
  | nil =>
    intro s s2 h
    cases h
    simp [countRemoves, countPushes]
  | cons op ops ih =>
    intro s s2 h
    rw [runStrict] at h
    cases hop : stepOp op s with
    | none => rw [hop] at h; cases h
    | some s1 =>
      rw [hop] at h
      have h2 := ih s1 s2 h
      cases op with
      | pushOp p fuel =>
        have h1 := push_len p fuel s s1 hop
        simp only [countPushes, countRemoves] at h2 ⊢
        omega
      | removeOp =>
        rw [stepOp] at hop
        by_cases hr : (DynStack.remove_last s).1
        · rw [if_pos hr] at hop
          cases hop
          have h1 := remove_len s hr
          simp only [countPushes, countRemoves] at h2 ⊢
          omega
        · rw [if_neg hr] at hop
          cases hop

/-- Claim C5, amended: over any successful run of pushes and removals from a
    fresh stack, len() equals pushes minus removals and removals never exceed
    pushes, for arbitrary payloads; and when additionally every pushed
    alignment divides the default arena alignment 16, an emptied stack has
    dyn_size = 0 again. -/
theorem c5_len_and_final_size (ops : List Op) (oracle : List Nat) (s : DynStack)
    (h : runStrict ops (DynStack.initial oracle) = some s) :
    DynStack.len s = countPushes ops - countRemoves ops ∧
    countRemoves ops ≤ countPushes ops ∧
    ((∀ op ∈ ops, GoodOp op) → OracleGood oracle →
      DynStack.len s = 0 → s.dyn_size = 0) := by
  have hlen := runStrict_len ops _ s h
  have h0 : DynStack.len (DynStack.initial oracle) = 0 := rfl
  rw [h0] at hlen
  refine ⟨by omega, by omega, ?_⟩
  intro hg ho hz
  have hI : Inv16 (DynStack.initial oracle) := by
    refine ⟨rfl, rfl, ho, fun _ => rfl, ?_⟩
    intro item hmem
    cases hmem
  obtain ⟨hI2, -⟩ := runStrict_inv16 ops _ s h hI hg
  exact hI2.2.2.2.1 (List.length_eq_zero.mp hz)

/-- Witness instantiating the amended claim C5 on the run push-then-remove. -/
theorem c5_len_and_final_size_witness :
    DynStack.len c5wEnd = countPushes c5wOps - countRemoves c5wOps ∧
    countRemoves c5wOps ≤ countPushes c5wOps ∧
    ((∀ op ∈ c5wOps, GoodOp op) → OracleGood [16] →
      DynStack.len c5wEnd = 0 → c5wEnd.dyn_size = 0) :=
  c5_len_and_final_size c5wOps [16] c5wEnd (by decide)
